import Mathlib

/-!
Shallow embedding of `src/preparation/diphone_converter.py`.

Python strings are modelled as `List Char`; the dictionaries loaded from
`convert_data.json` are modelled as association lists queried with
`List.lookup` (dict values are strings, i.e. `List Char`).  The rule table
itself is external configuration (it is not part of the source tree), so
every pipeline function is parameterised by a `RuleTable` value.
-/

/-- The lookup tables loaded from `convert_data.json` at import time:
`all_supported`, `consonants`, `voiced_to_voiceless`, `voiceless_to_voiced`,
`single_char_replacing`, `two_chars_replacing`, `number_dict`. -/
structure RuleTable where
  all_supported : List Char
  consonants : List Char
  voiced_to_voiceless : List (Char × List Char)
  voiceless_to_voiced : List (Char × List Char)
  single_char_replacing : List (Char × List Char)
  two_chars_replacing : List (List Char × List Char)
  number_dict : List (Char × List Char)

/-- The punctuation characters `[",", ".", "!", "?"]` tested in
`to_supported`. -/
def punctuation : List Char := [',', '.', '!', '?']

/-- `to_supported(text)`: lower-cases the text, then keeps supported
characters, spells out digits via `number_dict`, turns `, . ! ?` into `_`,
and silently drops everything else. -/
def to_supported (tbl : RuleTable) (text : List Char) : List Char :=
  (text.map Char.toLower).flatMap fun c =>
    if c ∈ tbl.all_supported then [c]
    else
      match tbl.number_dict.lookup c with
      | some w => w
      | none => if c ∈ punctuation then ['_'] else []

/-- `apply_special_rules(text)`: left-to-right scan; a two-character key in
`two_chars_replacing` is replaced and the cursor advances by 2, else a
single-character key in `single_char_replacing` is replaced and the cursor
advances by 1, else the character is copied.  At the last position the
Python slice `text[idx:idx+2]` is the one-character remainder, which is
still looked up in `two_chars_replacing` first — the `[c]` case mirrors
that. -/
def apply_special_rules (tbl : RuleTable) : List Char → List Char
  | [] => []
  | [c] =>
    match tbl.two_chars_replacing.lookup [c] with
    | some v => v
    | none =>
      match tbl.single_char_replacing.lookup c with
      | some v => v
      | none => [c]
  | c1 :: c2 :: rest =>
    match tbl.two_chars_replacing.lookup [c1, c2] with
    | some v => v ++ apply_special_rules tbl rest
    | none =>
      match tbl.single_char_replacing.lookup c1 with
      | some v => v ++ apply_special_rules tbl (c2 :: rest)
      | none => c1 :: apply_special_rules tbl (c2 :: rest)

/-- `to_voiced(consonant_group)`: map each character through
`voiceless_to_voiced`, characters absent from the map pass through. -/
def to_voiced (tbl : RuleTable) (consonant_group : List Char) : List Char :=
  consonant_group.flatMap fun c =>
    match tbl.voiceless_to_voiced.lookup c with
    | some v => v
    | none => [c]

/-- `to_voiceless(consonant_group)`: map each character through
`voiced_to_voiceless`, characters absent from the map pass through. -/
def to_voiceless (tbl : RuleTable) (consonant_group : List Char) : List Char :=
  consonant_group.flatMap fun c =>
    match tbl.voiced_to_voiceless.lookup c with
    | some v => v
    | none => [c]

/-- The loop state of `apply_assimilation`: the output built so far
(`new_text`) and the pending consonant cluster (`consonant_group`). -/
structure AssimState where
  out : List Char
  group : List Char

/-- The `if`/`elif` chain at the top of the `for char in text` loop of
`apply_assimilation`: consonants are buffered; a boundary character (`_`,
space, `X`) flushes the buffer through `to_voiceless`; any other character
flushes it through `to_voiced`/`to_voiceless` according to the buffer's
last consonant (and through nothing at all when that consonant is a key of
neither voicing map). -/
def assimFlush (tbl : RuleTable) (s : AssimState) (c : Char) : AssimState :=
  if c ∈ tbl.consonants then
    { s with group := s.group ++ [c] }
  else if c ∈ ['_', ' ', 'X'] ∧ s.group ≠ [] then
    { out := s.out ++ to_voiceless tbl s.group, group := [] }
  else if s.group ≠ [] then
    { out := s.out ++
        (if (tbl.voiced_to_voiceless.lookup (s.group.getLastD ' ')).isSome then
          to_voiced tbl s.group
        else if (tbl.voiceless_to_voiced.lookup (s.group.getLastD ' ')).isSome then
          to_voiceless tbl s.group
        else []),
      group := [] }
  else s

/-- One full iteration of the `for char in text` loop of
`apply_assimilation`: the `if`/`elif` chain of `assimFlush`, then the
trailing `if char not in CONSONANTS + [" "]` copy of the character
itself. -/
def assimStep (tbl : RuleTable) (s : AssimState) (c : Char) : AssimState :=
  if c ∉ tbl.consonants ++ [' '] then
    { assimFlush tbl s c with out := (assimFlush tbl s c).out ++ [c] }
  else assimFlush tbl s c

/-- `apply_assimilation(text)`: fold the loop over the text, then flush a
still-pending cluster through `to_voiceless` (clause-final devoicing). -/
def apply_assimilation (tbl : RuleTable) (text : List Char) : List Char :=
  let s := text.foldl (assimStep tbl) { out := [], group := [] }
  s.out ++ (if s.group ≠ [] then to_voiceless tbl s.group else [])

/-- `graphems_to_phonems(text)`: normalisation, grapheme rewriting, then
assimilation. -/
def graphems_to_phonems (tbl : RuleTable) (text : List Char) : List Char :=
  apply_assimilation tbl (apply_special_rules tbl (to_supported tbl text))

/-- `phonems_to_diphones(text)`: pad with `_` on both sides and take every
overlapping two-character slice `text[idx:idx+2]`. -/
def phonems_to_diphones (text : List Char) : List (List Char) :=
  let padded := '_' :: text ++ ['_']
  (List.range (padded.length - 1)).map fun idx => (padded.drop idx).take 2

/-- `convert_to_diphones(text)`: the full pipeline. -/
def convert_to_diphones (tbl : RuleTable) (text : List Char) : List (List Char) :=
  phonems_to_diphones (graphems_to_phonems tbl text)

/-- Recursive characterisation of overlapping two-character slices, used to
reason about `phonems_to_diphones` by induction. -/
def chain2 : List Char → List (List Char)
  | [] => []
  | [_] => []
  | a :: b :: rest => [a, b] :: chain2 (b :: rest)

/-- Modelled from the spec: the repository's `convert_data.json` is not part
of the source tree, so this is a small concrete `RuleTable` following §3 of
the spec — paired voiced/voiceless obstruents whose key sets are disjoint,
sonorant consonants (`m`, `n`, `l`, `r`, `j`) that are keys of neither
voicing map, a two-character digraph rule (`ch` → `x`) overlapping a
single-character rule on `c` (maximal munch), a digit spell-out map, and
all map values composed of characters from `all_supported ∪ {_}`. -/
def sampleTable : RuleTable where
  all_supported :=
    ['a', 'b', 'c', 'd', 'e', 'f', 'g', 'h', 'i', 'j', 'k', 'l', 'm', 'n',
     'o', 'p', 'r', 's', 't', 'u', 'v', 'x', 'z', '_']
  consonants :=
    ['b', 'c', 'd', 'f', 'g', 'h', 'j', 'k', 'l', 'm', 'n', 'p', 'r', 's',
     't', 'v', 'x', 'z']
  voiced_to_voiceless :=
    [('b', ['p']), ('d', ['t']), ('g', ['k']), ('v', ['f']), ('z', ['s']),
     ('h', ['x'])]
  voiceless_to_voiced :=
    [('p', ['b']), ('t', ['d']), ('k', ['g']), ('f', ['v']), ('s', ['z']),
     ('x', ['h'])]
  single_char_replacing := [('c', ['t', 's'])]
  two_chars_replacing := [(['c', 'h'], ['x'])]
  number_dict := [('1', ['j', 'e', 'd', 'n', 'a']), ('0', ['n', 'u', 'l', 'a'])]

/-! ## General lemmas about the embedding -/

theorem lookup_mem {α β : Type} [BEq α] [LawfulBEq α] {l : List (α × β)} {k : α}
    {v : β} (h : l.lookup k = some v) : ∃ k0, (k0, v) ∈ l := by
  induction l with
  | nil => simp [List.lookup] at h
  | cons p l ih =>
    rw [List.lookup_cons] at h
    by_cases hk : k == p.1
    · refine ⟨p.1, ?_⟩
      rw [hk] at h
      simp only [Option.some.injEq] at h
      subst h
      simp
    · rw [Bool.not_eq_true] at hk
      rw [hk] at h
      obtain ⟨k0, hm⟩ := ih h
      exact ⟨k0, List.mem_cons_of_mem _ hm⟩

theorem phonems_to_diphones_length (t : List Char) :
    (phonems_to_diphones t).length = t.length + 1 := by
  simp [phonems_to_diphones]

theorem phonems_to_diphones_elem_length (t : List Char) :
    ∀ d ∈ phonems_to_diphones t, d.length = 2 := by
  intro d hd
  simp only [phonems_to_diphones, List.mem_map, List.mem_range] at hd
  obtain ⟨i, hi, rfl⟩ := hd
  simp only [List.length_cons, List.length_append, List.length_singleton] at hi
  simp only [List.length_take, List.length_drop, List.length_cons,
    List.length_append, List.length_singleton]
  omega

theorem assimFlush_consonant (tbl : RuleTable) (s : AssimState) (c : Char)
    (h : c ∈ tbl.consonants) :
    assimFlush tbl s c = { out := s.out, group := s.group ++ [c] } := by
  simp [assimFlush, h]

theorem assimStep_consonant (tbl : RuleTable) (s : AssimState) (c : Char)
    (h : c ∈ tbl.consonants) :
    assimStep tbl s c = { out := s.out, group := s.group ++ [c] } := by
  have hm : c ∈ tbl.consonants ++ [' '] := List.mem_append_left _ h
  simp [assimStep, hm, assimFlush_consonant tbl s c h]

theorem assimFlush_group_nil (tbl : RuleTable) (s : AssimState) (c : Char)
    (h : c ∉ tbl.consonants) : (assimFlush tbl s c).group = [] := by
  by_cases hg : s.group = []
  · unfold assimFlush
    simp [h, hg]
  · unfold assimFlush
    simp only [h, if_false, hg, ne_eq, not_false_eq_true, and_true, if_neg]
    split <;> rfl

theorem assimStep_group_nil (tbl : RuleTable) (s : AssimState) (c : Char)
    (h : c ∉ tbl.consonants) : (assimStep tbl s c).group = [] := by
  unfold assimStep
  split <;> exact assimFlush_group_nil tbl s c h

theorem assimFlush_not_consonant_nil_group (tbl : RuleTable) (s : AssimState)
    (c : Char) (h : c ∉ tbl.consonants) (hg : s.group = []) :
    assimFlush tbl s c = s := by
  unfold assimFlush
  simp [h, hg]

theorem assimFlush_boundary (tbl : RuleTable) (s : AssimState) (c : Char)
    (hb : c ∈ ['_', ' ', 'X']) (h : c ∉ tbl.consonants) (hg : s.group ≠ []) :
    assimFlush tbl s c = { out := s.out ++ to_voiceless tbl s.group, group := [] } := by
  unfold assimFlush
  simp [h, hb, hg]

theorem assimStep_boundary (tbl : RuleTable) (s : AssimState) (c : Char)
    (hb : c ∈ ['_', ' ', 'X']) (h : c ∉ tbl.consonants) (hg : s.group ≠ []) :
    assimStep tbl s c =
      { out := s.out ++ to_voiceless tbl s.group ++ (if c = ' ' then [] else [c]),
        group := [] } := by
  unfold assimStep
  rw [assimFlush_boundary tbl s c hb h hg]
  by_cases hsp : c = ' '
  · subst hsp
    simp
  · have hm : c ∉ tbl.consonants ++ [' '] := by
      simp [h, hsp]
    simp [hm, hsp]

theorem foldl_assimStep_consonants (tbl : RuleTable) (g : List Char) :
    ∀ s : AssimState, (∀ c ∈ g, c ∈ tbl.consonants) →
      List.foldl (assimStep tbl) s g = { out := s.out, group := s.group ++ g } := by
  induction g with
  | nil => intro s _; simp
  | cons c g ih =>
    intro s h
    have hc : c ∈ tbl.consonants := h c (List.mem_cons_self _ _)
    rw [List.foldl_cons, assimStep_consonant tbl s c hc,
      ih _ (fun x hx => h x (List.mem_cons_of_mem _ hx))]
    simp

theorem assimStep_out_extends (tbl : RuleTable) (s : AssimState) (c : Char) :
    ∃ r, (assimStep tbl s c).out = s.out ++ r := by
  have hf : ∃ r, (assimFlush tbl s c).out = s.out ++ r := by
    unfold assimFlush
    split
    · exact ⟨[], by simp⟩
    · split
      · exact ⟨_, rfl⟩
      · split
        · exact ⟨_, rfl⟩
        · exact ⟨[], by simp⟩
  obtain ⟨r, hr⟩ := hf
  unfold assimStep
  split
  · exact ⟨r ++ [c], by simp [hr]⟩
  · exact ⟨r, hr⟩

theorem foldl_assimStep_out_extends (tbl : RuleTable) (l : List Char) :
    ∀ s : AssimState, ∃ r, (List.foldl (assimStep tbl) s l).out = s.out ++ r := by
  induction l with
  | nil => intro s; exact ⟨[], by simp⟩
  | cons c l ih =>
    intro s
    obtain ⟨r1, h1⟩ := assimStep_out_extends tbl s c
    obtain ⟨r2, h2⟩ := ih (assimStep tbl s c)
    exact ⟨r1 ++ r2, by rw [List.foldl_cons, h2, h1, List.append_assoc]⟩

theorem foldl_assimStep_group_nil_of_last (tbl : RuleTable) (pre : List Char)
    (s : AssimState) (hs : s.group = [])
    (hpre : ∀ c, pre.getLast? = some c → c ∉ tbl.consonants) :
    (List.foldl (assimStep tbl) s pre).group = [] := by
  rcases List.eq_nil_or_concat pre with rfl | ⟨l, c, rfl⟩
  · simpa using hs
  · have hc : c ∉ tbl.consonants := by
      apply hpre
      rw [List.concat_eq_append, List.getLast?_concat]
    rw [List.concat_eq_append, List.foldl_append, List.foldl_cons, List.foldl_nil]
    exact assimStep_group_nil tbl _ c hc

theorem getD_map_lt {α β : Type} (f : α → β) (l : List α) (i : Nat)
    (hi : i < l.length) (d : α) (d' : β) :
    (l.map f).getD i d' = f (l.getD i d) := by
  induction l generalizing i with
  | nil => simp at hi
  | cons a l ih =>
    cases i with
    | zero => simp
    | succ n =>
      simp only [List.map_cons, List.getD_cons_succ]
      exact ih n (by simpa using hi)

theorem to_voiceless_eq_map (tbl : RuleTable) (g : List Char)
    (h1 : ∀ p ∈ tbl.voiced_to_voiceless, p.2.length = 1) :
    to_voiceless tbl g = g.map (fun c =>
      match tbl.voiced_to_voiceless.lookup c with
      | some v => v.getD 0 c
      | none => c) := by
  induction g with
  | nil => rfl
  | cons c g ih =>
    have hcons : to_voiceless tbl (c :: g) =
        (match tbl.voiced_to_voiceless.lookup c with
         | some v => v
         | none => [c]) ++ to_voiceless tbl g := by
      simp [to_voiceless]
    rw [hcons, ih, List.map_cons]
    cases hc : tbl.voiced_to_voiceless.lookup c with
    | none => simp [hc]
    | some v =>
      obtain ⟨k0, hk⟩ := lookup_mem hc
      have hv : v.length = 1 := h1 (k0, v) hk
      cases v with
      | nil => simp at hv
      | cons a t =>
        cases t with
        | nil => simp [hc]
        | cons b t2 => simp at hv

theorem to_voiced_eq_map (tbl : RuleTable) (g : List Char)
    (h2 : ∀ p ∈ tbl.voiceless_to_voiced, p.2.length = 1) :
    to_voiced tbl g = g.map (fun c =>
      match tbl.voiceless_to_voiced.lookup c with
      | some v => v.getD 0 c
      | none => c) := by
  induction g with
  | nil => rfl
  | cons c g ih =>
    have hcons : to_voiced tbl (c :: g) =
        (match tbl.voiceless_to_voiced.lookup c with
         | some v => v
         | none => [c]) ++ to_voiced tbl g := by
      simp [to_voiced]
    rw [hcons, ih, List.map_cons]
    cases hc : tbl.voiceless_to_voiced.lookup c with
    | none => simp [hc]
    | some v =>
      obtain ⟨k0, hk⟩ := lookup_mem hc
      have hv : v.length = 1 := h2 (k0, v) hk
      cases v with
      | nil => simp at hv
      | cons a t =>
        cases t with
        | nil => simp [hc]
        | cons b t2 => simp at hv

theorem to_supported_of_all_supported (tbl : RuleTable)
    (hlower : ∀ c ∈ tbl.all_supported, c.toLower = c) :
    ∀ t : List Char, (∀ c ∈ t, c ∈ tbl.all_supported) → to_supported tbl t = t := by
  intro t
  induction t with
  | nil => intro _; rfl
  | cons c t ih =>
    intro ht
    have hc : c ∈ tbl.all_supported := ht c (List.mem_cons_self _ _)
    have hl : c.toLower = c := hlower c hc
    have hstep : to_supported tbl (c :: t) =
        (if c ∈ tbl.all_supported then [c]
         else
           match tbl.number_dict.lookup c with
           | some w => w
           | none => if c ∈ punctuation then ['_'] else []) ++ to_supported tbl t := by
      simp [to_supported, hl]
    rw [hstep, if_pos hc, ih (fun x hx => ht x (List.mem_cons_of_mem _ hx))]
    rfl

theorem range_slices_eq_chain2 : ∀ l : List Char,
    (List.range (l.length - 1)).map (fun i => (l.drop i).take 2) = chain2 l := by
  intro l
  induction l with
  | nil => rfl
  | cons a l ih =>
    cases l with
    | nil => rfl
    | cons b r =>
      have ih' : (List.range r.length).map (fun i => ((b :: r).drop i).take 2) =
          chain2 (b :: r) := by simpa using ih
      have hlen : (a :: b :: r).length - 1 = r.length + 1 := by simp
      have hfun : (fun i => ((a :: b :: r).drop i).take 2) ∘ Nat.succ =
          fun i => ((b :: r).drop i).take 2 := by
        funext i
        rfl
      rw [hlen, List.range_succ_eq_map, List.map_cons, List.map_map, hfun, ih']
      rfl

theorem phonems_to_diphones_eq_chain2 (t : List Char) :
    phonems_to_diphones t = chain2 ('_' :: t ++ ['_']) := by
  simp only [phonems_to_diphones]
  exact range_slices_eq_chain2 _

theorem chain2_length (l : List Char) : (chain2 l).length = l.length - 1 := by
  rw [← range_slices_eq_chain2]
  simp

theorem chain2_adjacent : ∀ (l : List Char) (i : Nat), i + 1 < (chain2 l).length →
    ((chain2 l).getD i []).getD 1 ' ' = ((chain2 l).getD (i + 1) []).getD 0 ' ' := by
  intro l
  induction l with
  | nil => intro i hi; simp [chain2] at hi
  | cons a l ih =>
    cases l with
    | nil => intro i hi; simp [chain2] at hi
    | cons b r =>
      intro i hi
      cases i with
      | zero =>
        cases r with
        | nil => simp [chain2] at hi
        | cons c r' => simp [chain2]
      | succ n =>
        have hi' : n + 1 < (chain2 (b :: r)).length := by
          simp only [chain2, List.length_cons] at hi
          omega
        simpa only [chain2, List.getD_cons_succ] using ih n hi'

theorem chain2_reconstruct : ∀ (t : List Char) (a : Char),
    ((chain2 (a :: t ++ ['_'])).getD ((chain2 (a :: t ++ ['_'])).length - 1) []).drop 1
      = ['_']
    ∧ ((chain2 (a :: t ++ ['_'])).map (fun d => d.take 1)).flatten ++ ['_'] =
        a :: t ++ ['_'] := by
  intro t
  induction t with
  | nil =>
    intro a
    exact ⟨rfl, rfl⟩
  | cons b t' ih =>
    intro a
    have hstep : chain2 (a :: (b :: t') ++ ['_']) = [a, b] :: chain2 (b :: t' ++ ['_']) := rfl
    have hlen2 : (chain2 (b :: t' ++ ['_'])).length = t'.length + 1 := by
      rw [chain2_length]
      simp
    constructor
    · rw [hstep]
      simp only [List.length_cons, hlen2, Nat.add_sub_cancel, List.getD_cons_succ]
      have h1 := (ih b).1
      rw [hlen2, Nat.add_sub_cancel] at h1
      exact h1
    · rw [hstep]
      show (a :: ((chain2 (b :: t' ++ ['_'])).map (fun d => d.take 1)).flatten) ++ ['_'] =
        a :: (b :: t') ++ ['_']
      rw [List.cons_append, (ih b).2]
      rfl

theorem to_supported_mem (tbl : RuleTable)
    (hN : ∀ p ∈ tbl.number_dict, ∀ c ∈ p.2, c ∈ tbl.all_supported ∨ c = '_') :
    ∀ t : List Char, ∀ c ∈ to_supported tbl t, c ∈ tbl.all_supported ∨ c = '_' := by
  intro t c hc
  simp only [to_supported, List.mem_flatMap] at hc
  obtain ⟨x, hx, hcx⟩ := hc
  split at hcx
  · next hsup =>
    simp only [List.mem_singleton] at hcx
    subst hcx
    exact Or.inl hsup
  · split at hcx
    · next w hl =>
      obtain ⟨k0, hk⟩ := lookup_mem hl
      exact hN (k0, w) hk c hcx
    · next hl =>
      split at hcx
      · simp only [List.mem_singleton] at hcx
        subst hcx
        exact Or.inr rfl
      · simp at hcx

theorem apply_special_rules_mem_aux (tbl : RuleTable)
    (hS : ∀ p ∈ tbl.single_char_replacing, ∀ c ∈ p.2, c ∈ tbl.all_supported ∨ c = '_')
    (hT : ∀ p ∈ tbl.two_chars_replacing, ∀ c ∈ p.2, c ∈ tbl.all_supported ∨ c = '_') :
    ∀ n (t : List Char), t.length ≤ n →
      (∀ c ∈ t, c ∈ tbl.all_supported ∨ c = '_') →
      ∀ c ∈ apply_special_rules tbl t, c ∈ tbl.all_supported ∨ c = '_' := by
  intro n
  induction n with
  | zero =>
    intro t hlen ht c hc
    have hnil : t = [] := List.length_eq_zero.mp (Nat.le_zero.mp hlen)
    subst hnil
    simp [apply_special_rules] at hc
  | succ n ih =>
    intro t hlen ht c hc
    cases t with
    | nil => simp [apply_special_rules] at hc
    | cons c1 rest1 =>
      cases rest1 with
      | nil =>
        simp only [apply_special_rules] at hc
        split at hc
        · next v hl =>
          obtain ⟨k0, hk⟩ := lookup_mem hl
          exact hT (k0, v) hk c hc
        · next hl =>
          split at hc
          · next v hl2 =>
            obtain ⟨k0, hk⟩ := lookup_mem hl2
            exact hS (k0, v) hk c hc
          · next hl2 =>
            simp only [List.mem_singleton] at hc
            subst hc
            exact ht c (List.mem_cons_self _ _)
      | cons c2 rest =>
        simp only [apply_special_rules] at hc
        split at hc
        · next v hl =>
          rcases List.mem_append.mp hc with hcv | hcr
          · obtain ⟨k0, hk⟩ := lookup_mem hl
            exact hT (k0, v) hk c hcv
          · refine ih rest ?_ ?_ c hcr
            · simp only [List.length_cons] at hlen
              omega
            · intro x hx
              exact ht x (List.mem_cons_of_mem _ (List.mem_cons_of_mem _ hx))
        · next hl =>
          split at hc
          · next v hl2 =>
            rcases List.mem_append.mp hc with hcv | hcr
            · obtain ⟨k0, hk⟩ := lookup_mem hl2
              exact hS (k0, v) hk c hcv
            · refine ih (c2 :: rest) ?_ ?_ c hcr
              · simp only [List.length_cons] at hlen ⊢
                omega
              · intro x hx
                exact ht x (List.mem_cons_of_mem _ hx)
          · next hl2 =>
            rcases List.mem_cons.mp hc with rfl | hcr
            · exact ht c (List.mem_cons_self _ _)
            · refine ih (c2 :: rest) ?_ ?_ c hcr
              · simp only [List.length_cons] at hlen ⊢
                omega
              · intro x hx
                exact ht x (List.mem_cons_of_mem _ hx)

theorem apply_special_rules_mem (tbl : RuleTable)
    (hS : ∀ p ∈ tbl.single_char_replacing, ∀ c ∈ p.2, c ∈ tbl.all_supported ∨ c = '_')
    (hT : ∀ p ∈ tbl.two_chars_replacing, ∀ c ∈ p.2, c ∈ tbl.all_supported ∨ c = '_')
    (t : List Char) (ht : ∀ c ∈ t, c ∈ tbl.all_supported ∨ c = '_') :
    ∀ c ∈ apply_special_rules tbl t, c ∈ tbl.all_supported ∨ c = '_' :=
  apply_special_rules_mem_aux tbl hS hT t.length t (Nat.le_refl _) ht

theorem to_voiceless_mem (tbl : RuleTable)
    (hV : ∀ p ∈ tbl.voiced_to_voiceless, ∀ c ∈ p.2, c ∈ tbl.all_supported ∨ c = '_')
    (g : List Char) (hg : ∀ c ∈ g, c ∈ tbl.all_supported ∨ c = '_') :
    ∀ c ∈ to_voiceless tbl g, c ∈ tbl.all_supported ∨ c = '_' := by
  intro c hc
  simp only [to_voiceless, List.mem_flatMap] at hc
  obtain ⟨x, hx, hcx⟩ := hc
  split at hcx
  · next v hl =>
    obtain ⟨k0, hk⟩ := lookup_mem hl
    exact hV (k0, v) hk c hcx
  · simp only [List.mem_singleton] at hcx
    rw [hcx]
    exact hg x hx

theorem to_voiced_mem (tbl : RuleTable)
    (hV2 : ∀ p ∈ tbl.voiceless_to_voiced, ∀ c ∈ p.2, c ∈ tbl.all_supported ∨ c = '_')
    (g : List Char) (hg : ∀ c ∈ g, c ∈ tbl.all_supported ∨ c = '_') :
    ∀ c ∈ to_voiced tbl g, c ∈ tbl.all_supported ∨ c = '_' := by
  intro c hc
  simp only [to_voiced, List.mem_flatMap] at hc
  obtain ⟨x, hx, hcx⟩ := hc
  split at hcx
  · next v hl =>
    obtain ⟨k0, hk⟩ := lookup_mem hl
    exact hV2 (k0, v) hk c hcx
  · simp only [List.mem_singleton] at hcx
    rw [hcx]
    exact hg x hx

theorem assimFlush_mem (tbl : RuleTable)
    (hV : ∀ p ∈ tbl.voiced_to_voiceless, ∀ c ∈ p.2, c ∈ tbl.all_supported ∨ c = '_')
    (hV2 : ∀ p ∈ tbl.voiceless_to_voiced, ∀ c ∈ p.2, c ∈ tbl.all_supported ∨ c = '_')
    (s : AssimState) (c : Char)
    (hout : ∀ x ∈ s.out, x ∈ tbl.all_supported ∨ x = '_')
    (hgrp : ∀ x ∈ s.group, x ∈ tbl.all_supported ∨ x = '_')
    (hc : c ∈ tbl.all_supported ∨ c = '_') :
    (∀ x ∈ (assimFlush tbl s c).out, x ∈ tbl.all_supported ∨ x = '_')
    ∧ (∀ x ∈ (assimFlush tbl s c).group, x ∈ tbl.all_supported ∨ x = '_') := by
  by_cases h1 : c ∈ tbl.consonants
  · rw [assimFlush_consonant tbl s c h1]
    refine ⟨hout, ?_⟩
    intro x hx
    rcases List.mem_append.mp hx with h | h
    · exact hgrp x h
    · simp only [List.mem_singleton] at h
      subst h
      exact hc
  · by_cases h2 : c ∈ ['_', ' ', 'X'] ∧ s.group ≠ []
    · rw [assimFlush_boundary tbl s c h2.1 h1 h2.2]
      refine ⟨?_, by simp⟩
      intro x hx
      rcases List.mem_append.mp hx with h | h
      · exact hout x h
      · exact to_voiceless_mem tbl hV s.group hgrp x h
    · by_cases h3 : s.group ≠ []
      · have hflush : assimFlush tbl s c =
            { out := s.out ++
                (if (tbl.voiced_to_voiceless.lookup (s.group.getLastD ' ')).isSome then
                  to_voiced tbl s.group
                else if (tbl.voiceless_to_voiced.lookup (s.group.getLastD ' ')).isSome then
                  to_voiceless tbl s.group
                else []),
              group := [] } := by
          unfold assimFlush
          rw [if_neg h1, if_neg h2, if_pos h3]
        rw [hflush]
        refine ⟨?_, by simp⟩
        intro x hx
        rcases List.mem_append.mp hx with h | h
        · exact hout x h
        · split at h
          · exact to_voiced_mem tbl hV2 s.group hgrp x h
          · split at h
            · exact to_voiceless_mem tbl hV s.group hgrp x h
            · simp at h
      · rw [assimFlush_not_consonant_nil_group tbl s c h1 (not_ne_iff.mp h3)]
        exact ⟨hout, hgrp⟩

theorem assimStep_mem (tbl : RuleTable)
    (hV : ∀ p ∈ tbl.voiced_to_voiceless, ∀ c ∈ p.2, c ∈ tbl.all_supported ∨ c = '_')
    (hV2 : ∀ p ∈ tbl.voiceless_to_voiced, ∀ c ∈ p.2, c ∈ tbl.all_supported ∨ c = '_')
    (s : AssimState) (c : Char)
    (hout : ∀ x ∈ s.out, x ∈ tbl.all_supported ∨ x = '_')
    (hgrp : ∀ x ∈ s.group, x ∈ tbl.all_supported ∨ x = '_')
    (hc : c ∈ tbl.all_supported ∨ c = '_') :
    (∀ x ∈ (assimStep tbl s c).out, x ∈ tbl.all_supported ∨ x = '_')
    ∧ (∀ x ∈ (assimStep tbl s c).group, x ∈ tbl.all_supported ∨ x = '_') := by
  have hflush := assimFlush_mem tbl hV hV2 s c hout hgrp hc
  unfold assimStep
  split
  · refine ⟨?_, hflush.2⟩
    intro x hx
    rcases List.mem_append.mp hx with h | h
    · exact hflush.1 x h
    · simp only [List.mem_singleton] at h
      subst h
      exact hc
  · exact hflush

theorem apply_assimilation_mem (tbl : RuleTable)
    (hV : ∀ p ∈ tbl.voiced_to_voiceless, ∀ c ∈ p.2, c ∈ tbl.all_supported ∨ c = '_')
    (hV2 : ∀ p ∈ tbl.voiceless_to_voiced, ∀ c ∈ p.2, c ∈ tbl.all_supported ∨ c = '_')
    (t : List Char) (ht : ∀ c ∈ t, c ∈ tbl.all_supported ∨ c = '_') :
    ∀ c ∈ apply_assimilation tbl t, c ∈ tbl.all_supported ∨ c = '_' := by
  have hfold : ∀ (l : List Char) (s : AssimState),
      (∀ c ∈ l, c ∈ tbl.all_supported ∨ c = '_') →
      (∀ x ∈ s.out, x ∈ tbl.all_supported ∨ x = '_') →
      (∀ x ∈ s.group, x ∈ tbl.all_supported ∨ x = '_') →
      (∀ x ∈ (List.foldl (assimStep tbl) s l).out, x ∈ tbl.all_supported ∨ x = '_')
      ∧ (∀ x ∈ (List.foldl (assimStep tbl) s l).group, x ∈ tbl.all_supported ∨ x = '_') := by
    intro l
    induction l with
    | nil => intro s _ h1 h2; exact ⟨h1, h2⟩
    | cons c l ih =>
      intro s hl h1 h2
      rw [List.foldl_cons]
      have hstep := assimStep_mem tbl hV hV2 s c h1 h2 (hl c (List.mem_cons_self _ _))
      exact ih _ (fun x hx => hl x (List.mem_cons_of_mem _ hx)) hstep.1 hstep.2
  intro c hc
  simp only [apply_assimilation] at hc
  rcases List.mem_append.mp hc with h | h
  · exact (hfold t _ ht (by simp) (by simp)).1 c h
  · split at h
    · exact to_voiceless_mem tbl hV _ (hfold t _ ht (by simp) (by simp)).2 c h
    · simp at h

theorem phonems_to_diphones_mem (tbl : RuleTable) (t : List Char)
    (ht : ∀ c ∈ t, c ∈ tbl.all_supported ∨ c = '_') :
    ∀ d ∈ phonems_to_diphones t, ∀ c ∈ d, c ∈ tbl.all_supported ∨ c = '_' := by
  intro d hd c hc
  simp only [phonems_to_diphones, List.mem_map, List.mem_range] at hd
  obtain ⟨i, _, rfl⟩ := hd
  have h2 : c ∈ '_' :: t ++ ['_'] :=
    List.drop_subset i ('_' :: t ++ ['_']) (List.take_subset 2 _ hc)
  rcases List.mem_cons.mp h2 with rfl | h3
  · exact Or.inr rfl
  · rcases List.mem_append.mp h3 with h4 | h4
    · exact ht c h4
    · simp only [List.mem_singleton] at h4
      subst h4
      exact Or.inr rfl

/-! ## Claim theorems -/

/-- C1: the claim says that when `apply_assimilation` meets a non-consonant,
non-boundary character while the pending cluster's last consonant is a key of
neither voicing map, the whole cluster is appended to the output unchanged.
The code does the opposite: it clears `consonant_group` without appending
anything, so the cluster is silently lost.  Concretely, with the sonorant
`m` (a consonant that is a key of neither map), `apply_assimilation "ma"`
returns `"a"`, not `"ma"`. -/
theorem apply_assimilation_unpaired_cluster_dropped :
    apply_assimilation sampleTable ['m', 'a'] = ['a'] := by decide

/-- C2: a maximal non-empty consonant cluster `g` (no consonant directly
before it) that is immediately followed by a boundary character (`_`, space
or `X`) or by the end of the input is emitted right after the output of the
prefix, mapped through `to_voiceless` (i.e. devoiced). -/
theorem assimilation_devoices_at_boundary (tbl : RuleTable) (pre g : List Char)
    (hpre : ∀ c, pre.getLast? = some c → c ∉ tbl.consonants)
    (hg : g ≠ []) (hcons : ∀ c ∈ g, c ∈ tbl.consonants) :
    (∀ b suf, b ∈ ['_', ' ', 'X'] → b ∉ tbl.consonants →
      ∃ rest, apply_assimilation tbl (pre ++ g ++ b :: suf) =
        (List.foldl (assimStep tbl) { out := [], group := [] } pre).out ++
          to_voiceless tbl g ++ rest)
    ∧ apply_assimilation tbl (pre ++ g) =
        (List.foldl (assimStep tbl) { out := [], group := [] } pre).out ++
          to_voiceless tbl g := by
  have hs1 : (List.foldl (assimStep tbl) { out := [], group := [] } pre).group = [] :=
    foldl_assimStep_group_nil_of_last tbl pre _ rfl hpre
  set s1 := List.foldl (assimStep tbl) { out := [], group := [] } pre with hs1def
  have hfold_g : List.foldl (assimStep tbl) s1 g = { out := s1.out, group := g } := by
    rw [foldl_assimStep_consonants tbl g s1 hcons, hs1]
    simp
  constructor
  · intro b suf hb hbc
    have hgne : ({ out := s1.out, group := g } : AssimState).group ≠ [] := by
      simpa using hg
    have hstep := assimStep_boundary tbl { out := s1.out, group := g } b hb hbc hgne
    have hS : List.foldl (assimStep tbl) { out := [], group := [] } (pre ++ g ++ b :: suf) =
        List.foldl (assimStep tbl)
          { out := s1.out ++ to_voiceless tbl g ++ (if b = ' ' then [] else [b]),
            group := [] } suf := by
      rw [List.foldl_append, List.foldl_append, ← hs1def, hfold_g, List.foldl_cons, hstep]
    obtain ⟨r, hr⟩ :=
      foldl_assimStep_out_extends tbl suf
        { out := s1.out ++ to_voiceless tbl g ++ (if b = ' ' then [] else [b]),
          group := [] }
    refine ⟨(if b = ' ' then [] else [b]) ++ r ++
      (if (List.foldl (assimStep tbl)
            { out := s1.out ++ to_voiceless tbl g ++ (if b = ' ' then [] else [b]),
              group := [] } suf).group ≠ [] then
        to_voiceless tbl (List.foldl (assimStep tbl)
            { out := s1.out ++ to_voiceless tbl g ++ (if b = ' ' then [] else [b]),
              group := [] } suf).group
      else []), ?_⟩
    simp only [apply_assimilation]
    rw [hS, hr]
    simp [List.append_assoc]
  · simp only [apply_assimilation]
    rw [List.foldl_append, ← hs1def, hfold_g]
    simp [hg]

/-- Witness for C2: in `"b_a"` (empty prefix) the cluster `"b"` before the
pause marker is devoiced to `"p"`, and in `"b"` the trailing cluster is
devoiced at end of input. -/
theorem assimilation_devoices_at_boundary_witness :
    (∃ rest, apply_assimilation sampleTable ([] ++ ['b'] ++ '_' :: ['a']) =
      (List.foldl (assimStep sampleTable) { out := [], group := [] } []).out ++
        to_voiceless sampleTable ['b'] ++ rest)
    ∧ apply_assimilation sampleTable ([] ++ ['b']) =
      (List.foldl (assimStep sampleTable) { out := [], group := [] } []).out ++
        to_voiceless sampleTable ['b'] := by
  have h := assimilation_devoices_at_boundary sampleTable [] ['b']
    (fun c hc => by simp at hc) (by decide) (by decide)
  exact ⟨h.1 '_' ['a'] (by decide) (by decide), h.2⟩

/-- The assimilation loop on a text with no consonants at all: every
character except spaces is copied, spaces are dropped, and the cluster
buffer stays empty. -/
theorem foldl_assimStep_no_consonants (tbl : RuleTable) (t : List Char) :
    ∀ s : AssimState, s.group = [] → (∀ c ∈ t, c ∉ tbl.consonants) →
      List.foldl (assimStep tbl) s t =
        { out := s.out ++ t.filter (fun c => c != ' '), group := [] } := by
  induction t with
  | nil =>
    intro s hs _
    cases s
    simp_all
  | cons c t ih =>
    intro s hs h
    have hc : c ∉ tbl.consonants := h c (List.mem_cons_self _ _)
    rw [List.foldl_cons]
    by_cases hsp : c = ' '
    · subst hsp
      have hst : assimStep tbl s ' ' = s := by
        unfold assimStep
        rw [assimFlush_not_consonant_nil_group tbl s ' ' hc hs]
        simp
      rw [hst, ih s hs (fun x hx => h x (List.mem_cons_of_mem _ hx))]
      simp [List.filter_cons]
    · have hm : c ∉ tbl.consonants ++ [' '] := by simp [hc, hsp]
      have hst : assimStep tbl s c = { s with out := s.out ++ [c] } := by
        unfold assimStep
        rw [assimFlush_not_consonant_nil_group tbl s c hc hs]
        simp [hm]
      rw [hst, ih _ (by simpa using hs) (fun x hx => h x (List.mem_cons_of_mem _ hx))]
      simp [List.filter_cons, hsp, List.append_assoc]

/-- C6: on an input containing no consonant at all, `apply_assimilation`
returns the input with all spaces removed and everything else unchanged, in
order. -/
theorem assimilation_no_consonants (tbl : RuleTable) (t : List Char)
    (h : ∀ c ∈ t, c ∉ tbl.consonants) :
    apply_assimilation tbl t = t.filter (fun c => c != ' ') := by
  simp only [apply_assimilation]
  rw [foldl_assimStep_no_consonants tbl t { out := [], group := [] } rfl h]
  simp

/-- Witness for C6: `"a e"` has no consonants and assimilation just strips
the space. -/
theorem assimilation_no_consonants_witness :
    apply_assimilation sampleTable ['a', ' ', 'e'] =
      List.filter (fun c => c != ' ') ['a', ' ', 'e'] :=
  assimilation_no_consonants sampleTable ['a', ' ', 'e'] (by decide)

/-- C3: whenever the two characters at the cursor form a key of
`two_chars_replacing`, its replacement is emitted and the cursor advances by
two characters — unconditionally, hence in particular also when the first of
the two characters is a key of `single_char_replacing`. -/
theorem special_rules_two_char_priority (tbl : RuleTable) (c1 c2 : Char)
    (rest : List Char) (v : List Char)
    (h : tbl.two_chars_replacing.lookup [c1, c2] = some v) :
    apply_special_rules tbl (c1 :: c2 :: rest) = v ++ apply_special_rules tbl rest := by
  simp [apply_special_rules, h]

/-- Witness for C3: in `sampleTable` the key `"ch"` of the two-character
rules and the key `'c'` of the single-character rules match at the same
cursor position of `"cha"`, and the two-character replacement `"x"` wins. -/
theorem special_rules_two_char_priority_witness :
    apply_special_rules sampleTable ['c', 'h', 'a'] =
      ['x'] ++ apply_special_rules sampleTable ['a'] :=
  special_rules_two_char_priority sampleTable 'c' 'h' ['a'] ['x'] (by decide)

/-- C4: the diphone sequence of `convert_to_diphones t` has exactly one more
element than the phonetic transcription `graphems_to_phonems t`, and every
element is exactly two characters long. -/
theorem convert_to_diphones_length_law (tbl : RuleTable) (t : List Char) :
    (convert_to_diphones tbl t).length = (graphems_to_phonems tbl t).length + 1
      ∧ ∀ d ∈ convert_to_diphones tbl t, d.length = 2 :=
  ⟨phonems_to_diphones_length _, phonems_to_diphones_elem_length _⟩

/-- C7: on a text whose characters are all already supported,
`to_supported` is the lowercasing of the text with the punctuation
characters `, . ! ?` replaced by `_`, and no character is deleted
(the length is preserved).  The two table hypotheses record the shape of
the supported alphabet (lowercase, and not containing the punctuation
characters, which normalisation itself replaces). -/
theorem to_supported_already_supported (tbl : RuleTable) (t : List Char)
    (hlower : ∀ c ∈ tbl.all_supported, c.toLower = c)
    (hpunct : ∀ c ∈ punctuation, c ∉ tbl.all_supported)
    (ht : ∀ c ∈ t, c ∈ tbl.all_supported) :
    to_supported tbl t =
      (t.map Char.toLower).map (fun c => if c ∈ punctuation then '_' else c)
    ∧ (to_supported tbl t).length = t.length := by
  have h1 : to_supported tbl t = t := to_supported_of_all_supported tbl hlower t ht
  have h2 : (t.map Char.toLower).map (fun c => if c ∈ punctuation then '_' else c) = t := by
    rw [List.map_map]
    have hpt : ∀ c ∈ t,
        ((fun c => if c ∈ punctuation then '_' else c) ∘ Char.toLower) c = id c := by
      intro c hc
      have hl := hlower c (ht c hc)
      have hp : c ∉ punctuation := fun hmem => hpunct c hmem (ht c hc)
      simp [Function.comp, hl, hp]
    rw [List.map_congr_left hpt, List.map_id]
  exact ⟨by rw [h1, h2], by rw [h1]⟩

/-- Witness for C7: `"pes"` consists of supported characters only and is
returned unchanged by `to_supported` over the sample table. -/
theorem to_supported_already_supported_witness :
    to_supported sampleTable ['p', 'e', 's'] =
      ((['p', 'e', 's'] : List Char).map Char.toLower).map
        (fun c => if c ∈ punctuation then '_' else c)
    ∧ (to_supported sampleTable ['p', 'e', 's']).length =
      (['p', 'e', 's'] : List Char).length :=
  to_supported_already_supported sampleTable ['p', 'e', 's']
    (by decide) (by decide) (by decide)

/-- C8: `convert_to_diphones` on the empty string returns exactly `["__"]`,
for every rule table. -/
theorem convert_to_diphones_empty (tbl : RuleTable) :
    convert_to_diphones tbl [] = [['_', '_']] := rfl

/-- C10: when every value of the two voicing maps is a single character,
`to_voiceless` and `to_voiced` preserve the length of the group, and any
position whose character is not a key of the respective map is passed
through unchanged at that position. -/
theorem voicing_maps_length_pointwise (tbl : RuleTable) (g : List Char)
    (h1 : ∀ p ∈ tbl.voiced_to_voiceless, p.2.length = 1)
    (h2 : ∀ p ∈ tbl.voiceless_to_voiced, p.2.length = 1) :
    (to_voiceless tbl g).length = g.length
    ∧ (to_voiced tbl g).length = g.length
    ∧ (∀ i, i < g.length → tbl.voiced_to_voiceless.lookup (g.getD i ' ') = none →
        (to_voiceless tbl g).getD i ' ' = g.getD i ' ')
    ∧ (∀ i, i < g.length → tbl.voiceless_to_voiced.lookup (g.getD i ' ') = none →
        (to_voiced tbl g).getD i ' ' = g.getD i ' ') := by
  refine ⟨?_, ?_, ?_, ?_⟩
  · rw [to_voiceless_eq_map tbl g h1]
    simp
  · rw [to_voiced_eq_map tbl g h2]
    simp
  · intro i hi hnone
    rw [to_voiceless_eq_map tbl g h1, getD_map_lt _ g i hi ' ' ' ']
    simp only [hnone]
  · intro i hi hnone
    rw [to_voiced_eq_map tbl g h2, getD_map_lt _ g i hi ' ' ' ']
    simp only [hnone]

/-- C9: the diphone list of `phonems_to_diphones t` chains with overlap —
the second character of each element is the first character of the next,
the first element begins with `_`, the last element ends with `_`, and
concatenating every element's first character followed by the last
element's final character reconstructs the padded transcription
`"_" ++ t ++ "_"`. -/
theorem phonems_to_diphones_chain (t : List Char) :
    (∀ i, i + 1 < (phonems_to_diphones t).length →
      ((phonems_to_diphones t).getD i []).getD 1 ' ' =
        ((phonems_to_diphones t).getD (i + 1) []).getD 0 ' ')
    ∧ ((phonems_to_diphones t).getD 0 []).take 1 = ['_']
    ∧ ((phonems_to_diphones t).getD ((phonems_to_diphones t).length - 1) []).drop 1
        = ['_']
    ∧ ((phonems_to_diphones t).map (fun d => d.take 1)).flatten ++
        ((phonems_to_diphones t).getD ((phonems_to_diphones t).length - 1) []).drop 1 =
        '_' :: t ++ ['_'] := by
  have hb := phonems_to_diphones_eq_chain2 t
  have hrec := chain2_reconstruct t '_'
  refine ⟨?_, ?_, ?_, ?_⟩
  · intro i hi
    rw [hb] at hi ⊢
    exact chain2_adjacent _ i hi
  · rw [hb]
    cases t with
    | nil => rfl
    | cons b t' => rfl
  · rw [hb]
    exact hrec.1
  · rw [hb, hrec.1]
    exact hrec.2

/-- Witness for C9: on the one-character transcription `"a"` the second
character of the first diphone `"_a"` equals the first character of the
second diphone `"a_"`. -/
theorem phonems_to_diphones_chain_witness :
    ((phonems_to_diphones ['a']).getD 0 []).getD 1 ' ' =
      ((phonems_to_diphones ['a']).getD 1 []).getD 0 ' ' :=
  (phonems_to_diphones_chain ['a']).1 0 (by decide)

/-- Witness for C10: on the group `"bm"` the devoicing map preserves the
length, and the unpaired sonorant `m` at position 1 passes through. -/
theorem voicing_maps_length_pointwise_witness :
    (to_voiceless sampleTable ['b', 'm']).length = (['b', 'm'] : List Char).length
    ∧ (to_voiceless sampleTable ['b', 'm']).getD 1 ' ' =
      (['b', 'm'] : List Char).getD 1 ' ' := by
  have h := voicing_maps_length_pointwise sampleTable ['b', 'm'] (by decide) (by decide)
  exact ⟨h.1, h.2.2.1 1 (by decide) (by decide)⟩

/-- C5: assuming the rule-table invariant that every value of the digit,
single-character, two-character and voicing maps consists only of
characters of `all_supported` or the boundary/pause marker `_` (per the
spec's glossary the boundary/pause marker is the reserved `_`), every
character of every diphone returned by `convert_to_diphones` lies in
`all_supported ∪ {_}`. -/
theorem convert_to_diphones_alphabet_closure (tbl : RuleTable) (t : List Char)
    (hN : ∀ p ∈ tbl.number_dict, ∀ c ∈ p.2, c ∈ tbl.all_supported ∨ c = '_')
    (hS : ∀ p ∈ tbl.single_char_replacing, ∀ c ∈ p.2, c ∈ tbl.all_supported ∨ c = '_')
    (hT : ∀ p ∈ tbl.two_chars_replacing, ∀ c ∈ p.2, c ∈ tbl.all_supported ∨ c = '_')
    (hV : ∀ p ∈ tbl.voiced_to_voiceless, ∀ c ∈ p.2, c ∈ tbl.all_supported ∨ c = '_')
    (hV2 : ∀ p ∈ tbl.voiceless_to_voiced, ∀ c ∈ p.2, c ∈ tbl.all_supported ∨ c = '_') :
    ∀ d ∈ convert_to_diphones tbl t, ∀ c ∈ d, c ∈ tbl.all_supported ∨ c = '_' := by
  simp only [convert_to_diphones, graphems_to_phonems]
  have h1 := to_supported_mem tbl hN t
  have h2 := apply_special_rules_mem tbl hS hT _ h1
  have h3 := apply_assimilation_mem tbl hV hV2 _ h2
  exact phonems_to_diphones_mem tbl _ h3

/-- Witness for C5: the sample table satisfies the value-closure invariant,
and the character `p` of the diphone `"_p"` of `convert_to_diphones "b"`
is indeed in the supported alphabet. -/
theorem convert_to_diphones_alphabet_closure_witness :
    'p' ∈ sampleTable.all_supported ∨ 'p' = '_' :=
  convert_to_diphones_alphabet_closure sampleTable ['b']
    (by decide) (by decide) (by decide) (by decide) (by decide)
    ['_', 'p'] (by decide) 'p' (by decide)
